import Mathlib

/-!
Verification development for the `onevpl-rs` data-movement layer.

The definitions below are a shallow embedding of the Rust sources:

* `Bitstream` and its `write`/`read` operations embed
  `src/bitstream.rs` (`impl io::Write for Bitstream` and
  `impl io::Read for Bitstream`).  Byte buffers are `List Nat`,
  machine indices are `Nat`.
* The `FrameSurface` plane-length accessors embed the `match` arms of
  `FrameSurface::y/u/v/b/g/r/a` in `src/lib.rs`.
* `writeRows`, `planarRead`, `nv12Read` and `bgraRead` embed
  `impl io::Read for FrameSurface` in `src/lib.rs`.
* `readRawFrame` embeds the control flow of
  `FrameSurface::read_raw_frame` in `src/lib.rs`.
* The trampoline models embed `src/frameallocator.rs`.
-/

namespace OneVpl

/-- State of a `Bitstream` (src/bitstream.rs): a fixed backing buffer,
`DataOffset` (read cursor) and `DataLength` (valid byte count). -/
structure Bitstream where
  buffer : List Nat
  dataOffset : Nat
  dataLength : Nat
  deriving Repr, DecidableEq

/-- `Bitstream::with_codec`: wraps a caller-owned buffer; the `mfxBitstream`
is zeroed, so `DataOffset = DataLength = 0`. -/
def Bitstream.withCodec (buf : List Nat) : Bitstream :=
  { buffer := buf, dataOffset := 0, dataLength := 0 }

/-- `impl io::Write for Bitstream` (src/bitstream.rs lines 85-107).
Returns the new state and the count written (`Ok(copy_len)`).

* early return `Ok(0)` when `data_len >= buffer.len()`;
* if `data_offset > 0`, `copy_within(data_offset..data_offset+data_len, 0)`
  and `DataOffset = 0` (compaction);
* append `min(free_buffer_len, buf.len())` input bytes at `data_len`. -/
def Bitstream.write (s : Bitstream) (input : List Nat) : Bitstream × Nat :=
  if s.buffer.length ≤ s.dataLength then (s, 0)
  else
    let buffer1 :=
      if 0 < s.dataOffset then
        (s.buffer.drop s.dataOffset).take s.dataLength ++ s.buffer.drop s.dataLength
      else s.buffer
    let freeLen := buffer1.length - s.dataLength
    let copyLen := min freeLen input.length
    let buffer2 := buffer1.take s.dataLength ++ input.take copyLen
        ++ buffer1.drop (s.dataLength + copyLen)
    ({ buffer := buffer2, dataOffset := 0, dataLength := s.dataLength + copyLen }, copyLen)

/-- `impl io::Read for Bitstream` (src/bitstream.rs lines 115-122).
`buf.write(&buffer[..DataLength])` copies `min(cap, DataLength)` bytes
from the FRONT of the backing buffer (index 0, not `DataOffset`), then
`copy_within(bytes..DataLength, 0)` shifts and `DataLength -= bytes`.
Returns the new state and the bytes copied out. -/
def Bitstream.read (s : Bitstream) (cap : Nat) : Bitstream × List Nat :=
  let n := min cap s.dataLength
  let out := s.buffer.take n
  let buffer1 := (s.buffer.drop n).take (s.dataLength - n)
      ++ s.buffer.drop (s.dataLength - n)
  ({ buffer := buffer1, dataOffset := s.dataOffset, dataLength := s.dataLength - n }, out)

/-- The logical content of a bitstream: the `DataLength` bytes starting at
`DataOffset`. -/
def Bitstream.content (s : Bitstream) : List Nat :=
  (s.buffer.drop s.dataOffset).take s.dataLength

/-- The documented invariant: `data_offset + data_length <= capacity`. -/
def Bitstream.inv (s : Bitstream) : Prop :=
  s.dataOffset + s.dataLength ≤ s.buffer.length

instance (s : Bitstream) : Decidable s.inv := by
  unfold Bitstream.inv; infer_instance

/-- A sequence of `read` calls with destination capacities `caps`;
returns the final state and the concatenation of all bytes returned. -/
def Bitstream.readAll (s : Bitstream) : List Nat → Bitstream × List Nat
  | [] => (s, [])
  | c :: cs =>
    let r := s.read c
    let rest := r.1.readAll cs
    (rest.1, r.2 ++ rest.2)

/-- Pixel format tags (`FourCC` in src/constants.rs); only the constructors
the surface accessors distinguish are listed, plus representatives of the
unimplemented arms. -/
inductive FourCC where
  | NV12 | YV12 | IyuvOrI420 | Rgb4OrBgra | BGR4 | NV16 | YUY2 | P010 | AYUV
  deriving Repr, DecidableEq

/-- `FrameSurface::y` (src/lib.rs lines 453-484): byte length of the luma
view; `none` models the `todo!()`/`unimplemented!()` arms (a panic). -/
def FrameSurface.yLen (fourcc : FourCC) (pitch cropHeight : Nat) : Option Nat :=
  match fourcc with
  | .NV12 | .YV12 | .IyuvOrI420 => some (cropHeight * pitch)
  | _ => none

/-- `FrameSurface::u` (src/lib.rs lines 486-517): byte length of the U view. -/
def FrameSurface.uLen (fourcc : FourCC) (pitch cropHeight : Nat) : Option Nat :=
  match fourcc with
  | .NV12 | .YV12 | .IyuvOrI420 => some ((cropHeight / 2) * (pitch / 2))
  | _ => none

/-- `FrameSurface::v` (src/lib.rs lines 519-550): byte length of the V view. -/
def FrameSurface.vLen (fourcc : FourCC) (pitch cropHeight : Nat) : Option Nat :=
  match fourcc with
  | .NV12 | .YV12 | .IyuvOrI420 => some ((cropHeight / 2) * (pitch / 2))
  | _ => none

/-- `FrameSurface::b` (src/lib.rs lines 400-411): whole-frame view for the
packed formats. -/
def FrameSurface.bLen (fourcc : FourCC) (pitch cropHeight : Nat) : Option Nat :=
  match fourcc with
  | .Rgb4OrBgra | .BGR4 => some (cropHeight * pitch)
  | _ => none

/-- `FrameSurface::g` (src/lib.rs lines 413-424): `crop_height * pitch - 1`. -/
def FrameSurface.gLen (fourcc : FourCC) (pitch cropHeight : Nat) : Option Nat :=
  match fourcc with
  | .Rgb4OrBgra => some (cropHeight * pitch - 1)
  | _ => none

/-- `FrameSurface::r` (src/lib.rs lines 426-437): `crop_height * pitch - 2`. -/
def FrameSurface.rLen (fourcc : FourCC) (pitch cropHeight : Nat) : Option Nat :=
  match fourcc with
  | .Rgb4OrBgra => some (cropHeight * pitch - 2)
  | _ => none

/-- `FrameSurface::a` (src/lib.rs lines 439-450): `crop_height * pitch - 3`. -/
def FrameSurface.aLen (fourcc : FourCC) (pitch cropHeight : Nat) : Option Nat :=
  match fourcc with
  | .Rgb4OrBgra => some (cropHeight * pitch - 3)
  | _ => none

/-- Engine status codes (`MfxStatus` in intel-onevpl-sys); only the
constructors this layer produces are listed. -/
inductive MfxStatus where
  | NoneOrDone | Unknown | MemoryAlloc | MoreData | Unsupported
  deriving Repr, DecidableEq

/-- The handler table of a `FrameAllocator` (src/frameallocator.rs lines
26-33): five optional registered handlers.  The handlers themselves are
abstracted as functions from an opaque argument to a status. -/
structure FrameAllocatorTable where
  alloc_callback : Option (Nat → MfxStatus)
  lock_callback : Option (Nat → MfxStatus)
  unlock_callback : Option (Nat → MfxStatus)
  get_hdl_callback : Option (Nat → MfxStatus)
  free_callback : Option (Nat → MfxStatus)

/-- The `alloc` trampoline installed by `set_alloc_callback`
(src/frameallocator.rs lines 65-88): recover the table through `pthis`,
return `MFX_ERR_MEMORY_ALLOC` when no handler is registered, otherwise
dispatch.  `none` would model a trap/abort; this trampoline never traps. -/
def trampolineAlloc (t : FrameAllocatorTable) (arg : Nat) : Option MfxStatus :=
  match t.alloc_callback with
  | none => some MfxStatus.MemoryAlloc
  | some c => some (c arg)

/-- The `lock` trampoline (src/frameallocator.rs lines 100-117). -/
def trampolineLock (t : FrameAllocatorTable) (arg : Nat) : Option MfxStatus :=
  match t.lock_callback with
  | none => some MfxStatus.MemoryAlloc
  | some c => some (c arg)

/-- The `unlock` trampoline (src/frameallocator.rs lines 129-146). -/
def trampolineUnlock (t : FrameAllocatorTable) (arg : Nat) : Option MfxStatus :=
  match t.unlock_callback with
  | none => some MfxStatus.MemoryAlloc
  | some c => some (c arg)

/-- The `get_hdl` trampoline (src/frameallocator.rs lines 158-171): the
no-handler path returns `MFX_ERR_MEMORY_ALLOC`; the registered-handler
path hits `todo!()` — a panic, modelled as `none`. -/
def trampolineGetHdl (t : FrameAllocatorTable) (_arg : Nat) : Option MfxStatus :=
  match t.get_hdl_callback with
  | none => some MfxStatus.MemoryAlloc
  | some _ => none

/-- The `free` trampoline (src/frameallocator.rs lines 183-199). -/
def trampolineFree (t : FrameAllocatorTable) (arg : Nat) : Option MfxStatus :=
  match t.free_callback with
  | none => some MfxStatus.MemoryAlloc
  | some c => some (c arg)

/-- Location-level model of `FrameAllocator::new` (src/frameallocator.rs
lines 46-62).  The constructor builds the allocator in a stack slot at
address `localAddr`, stores `&mut allocator as *mut c_void` — the address
of that stack slot — into `inner.pthis`, and then returns the struct BY
VALUE, moving it to the caller's location `retAddr`.  `addr` is where the
returned value (the one holding the registered handler table) lives;
`pthis` is the context pointer it carries. -/
structure FrameAllocatorLoc where
  addr : Nat
  pthis : Nat
  deriving Repr, DecidableEq

/-- `FrameAllocator::new` at the location level: `pthis` is set to the
local slot's address before the move; the move to `retAddr` does not
update it. -/
def FrameAllocator.newLoc (localAddr retAddr : Nat) : FrameAllocatorLoc :=
  { addr := retAddr, pthis := localAddr }

/-- Outcome of `source.read_exact(...)` inside `read_raw_frame`
(src/lib.rs line 682): the source fills the shadow buffer, hits
end-of-file early (fewer bytes than one frame), or fails with another
I/O error. -/
inductive ReadExactOutcome where
  | filled | eofShort | ioError
  deriving Repr, DecidableEq

/-- Access mode passed to `map` (`MemoryFlag`). -/
inductive MemoryFlag where
  | read | write
  deriving Repr, DecidableEq

/-- The flag `read_raw_frame` maps with (src/lib.rs line 680). -/
def readRawFrameMapFlag : MemoryFlag := MemoryFlag.write

/-- Control-flow model of `FrameSurface::read_raw_frame` (src/lib.rs
lines 675-734).  Returns `none` for the `todo!()` format arms (a panic);
otherwise `some (mappedAtReturn, result)`:

* `map(MemoryFlag::WRITE)`, so the surface is mapped;
* `read_exact` short read → early `return Err(MoreData)` — no unmap;
* any other I/O error → early `return Err(Unknown)` — no unmap;
* full frame read → de-interleave for the format (`YV12`, `Rgb4OrBgra`
  and `IyuvOrI420` are implemented and return `Ok(())`), then `unmap`,
  then return the conversion result. -/
def FrameSurface.readRawFrame (outcome : ReadExactOutcome) (format : FourCC) :
    Option (Bool × Except MfxStatus Unit) :=
  match outcome with
  | .eofShort => some (true, Except.error MfxStatus.MoreData)
  | .ioError => some (true, Except.error MfxStatus.Unknown)
  | .filled =>
    match format with
    | .YV12 => some (false, Except.ok ())
    | .Rgb4OrBgra => some (false, Except.ok ())
    | .IyuvOrI420 => some (false, Except.ok ())
    | _ => none

/-- One row of a plane as read by `impl io::Read for FrameSurface`
(src/lib.rs lines 828-831): the `w` bytes starting at `i * pitch` of the
plane memory (`slice::from_raw_parts(ptr.offset(i * pitch), w)`). -/
def planeRow (mem : Nat → Nat) (pitch w i : Nat) : List Nat :=
  (List.range w).map fun j => mem (i * pitch + j)

/-- The row loop of the streaming read (src/lib.rs lines 827-844 and its
copies): starting at row `i` with `n` rows remaining and `cap` destination
bytes free, emit whole rows only (`slice.len() <= buf.len()`), stopping at
the first row that does not fit (`bytes == 0`, which also happens when
`w = 0`).  Returns (bytes emitted, destination bytes left, loop finished
without break). -/
def writeRows (mem : Nat → Nat) (pitch w : Nat) :
    Nat → Nat → Nat → List Nat × Nat × Bool
  | _, 0, cap => ([], cap, true)
  | i, n + 1, cap =>
    if 0 < w ∧ w ≤ cap then
      let rest := writeRows mem pitch w (i + 1) n (cap - w)
      (planeRow mem pitch w i ++ rest.1, rest.2.1, rest.2.2)
    else ([], cap, false)

/-- `n` consecutive whole rows starting at row `i`. -/
def catRows (mem : Nat → Nat) (pitch w : Nat) : Nat → Nat → List Nat
  | _, 0 => []
  | i, n + 1 => planeRow mem pitch w i ++ catRows mem pitch w (i + 1) n

/-- The data of a mapped three-plane 4:2:0 surface as the streaming read
sees it: the three plane base pointers (as byte maps), `crop_width`,
`crop_height` and the pitch. -/
structure PlanarSurf where
  memY : Nat → Nat
  memU : Nat → Nat
  memV : Nat → Nat
  w : Nat
  h : Nat
  pitch : Nat

/-- One call of `impl io::Read for FrameSurface` on the
`IyuvOrI420 | YV12` arm (src/lib.rs lines 822-891), at cursor
`read_offset = off` with a destination of `cap` bytes:

* Y rows: `y_start = read_offset / w`, rows `y_start..h`, `w` bytes per
  row at stride `pitch`; on break (`break 'outer`) the call returns;
* U rows: `u_start = (read_offset + bytes_written - total_y_size) / (w/2)`
  with `total_y_size = w * h`, rows of `w/2` bytes at stride `pitch/2`;
* V rows likewise with `total_uv_size = (w/2) * (h/2)` subtracted as well.

Returns the bytes written; the Rust code then advances `read_offset` by
their number. -/
def planarRead (s : PlanarSurf) (off cap : Nat) : List Nat :=
  let yStart := off / s.w
  let r1 := writeRows s.memY s.pitch s.w yStart (s.h - yStart) cap
  if r1.2.2 = false then r1.1
  else
    let w2 := s.w / 2
    let h2 := s.h / 2
    let p2 := s.pitch / 2
    let totalY := s.w * s.h
    let uStart := (off + r1.1.length - totalY) / w2
    let r2 := writeRows s.memU p2 w2 uStart (h2 - uStart) r1.2.1
    if r2.2.2 = false then r1.1 ++ r2.1
    else
      let totalUV := w2 * h2
      let vStart := (off + r1.1.length + r2.1.length - totalY - totalUV) / w2
      let r3 := writeRows s.memV p2 w2 vStart (h2 - vStart) r2.2.1
      r1.1 ++ r2.1 ++ r3.1

/-- A mapped NV12 (semi-planar) surface: luma plane and interleaved
chroma plane. -/
structure Nv12Surf where
  memY : Nat → Nat
  memUV : Nat → Nat
  w : Nat
  h : Nat
  pitch : Nat

/-- One call of the streaming read on the `NV12` arm (src/lib.rs lines
892-940): Y rows as above, then `h/2` interleaved UV rows of `w` bytes at
the full stride. -/
def nv12Read (s : Nv12Surf) (off cap : Nat) : List Nat :=
  let yStart := off / s.w
  let r1 := writeRows s.memY s.pitch s.w yStart (s.h - yStart) cap
  if r1.2.2 = false then r1.1
  else
    let h2 := s.h / 2
    let totalY := s.w * s.h
    let uStart := (off + r1.1.length - totalY) / s.w
    let r2 := writeRows s.memUV s.pitch s.w uStart (h2 - uStart) r1.2.1
    r1.1 ++ r2.1

/-- One call of the streaming read on the `Rgb4OrBgra` arm (src/lib.rs
lines 960-962): `buf.write(&self.b()[self.read_offset..])` — copy
`min(cap, frame.length - off)` bytes with no row granularity. -/
def bgraRead (frame : List Nat) (off cap : Nat) : List Nat :=
  (frame.drop off).take cap

/-- The whole multi-plane frame, as produced by a single streaming read
with a large enough destination: all Y rows, then all U rows, then all
V rows. -/
def planarFull (s : PlanarSurf) : List Nat :=
  catRows s.memY s.pitch s.w 0 s.h
    ++ catRows s.memU (s.pitch / 2) (s.w / 2) 0 (s.h / 2)
    ++ catRows s.memV (s.pitch / 2) (s.w / 2) 0 (s.h / 2)

/-- Total byte count of a planar frame as streamed. -/
def planarTotal (s : PlanarSurf) : Nat :=
  s.h * s.w + ((s.h / 2) * (s.w / 2) + (s.h / 2) * (s.w / 2))

/-- The whole NV12 frame as streamed. -/
def nv12Full (s : Nv12Surf) : List Nat :=
  catRows s.memY s.pitch s.w 0 s.h ++ catRows s.memUV s.pitch s.w 0 (s.h / 2)

/-- Total byte count of an NV12 frame as streamed. -/
def nv12Total (s : Nv12Surf) : Nat :=
  s.h * s.w + (s.h / 2) * s.w

/-- Repeated streaming reads with destination sizes `caps`, threading the
`read_offset` cursor exactly as the Rust code does
(`self.read_offset += bytes_written`). -/
def planarDrain (s : PlanarSurf) : Nat → List Nat → List Nat
  | _, [] => []
  | off, c :: cs =>
    let out := planarRead s off c
    out ++ planarDrain s (off + out.length) cs

/-- Repeated NV12 streaming reads. -/
def nv12Drain (s : Nv12Surf) : Nat → List Nat → List Nat
  | _, [] => []
  | off, c :: cs =>
    let out := nv12Read s off c
    out ++ nv12Drain s (off + out.length) cs

/-- Repeated Rgb4OrBgra streaming reads. -/
def bgraDrain (frame : List Nat) : Nat → List Nat → List Nat
  | _, [] => []
  | off, c :: cs =>
    let out := bgraRead frame off c
    out ++ bgraDrain frame (off + out.length) cs

/-- A plane segment of the streamed frame: memory, stride, row width and
row count.  The planar read is the three-segment instance, the NV12 read
the two-segment instance. -/
structure Seg where
  mem : Nat → Nat
  pitch : Nat
  w : Nat
  rows : Nat

/-- Concatenation of all rows of a segment list. -/
def segFull : List Seg → List Nat
  | [] => []
  | g :: gs => catRows g.mem g.pitch g.w 0 g.rows ++ segFull gs

/-- Total byte count of a segment list. -/
def segTotal : List Seg → Nat
  | [] => 0
  | g :: gs => g.rows * g.w + segTotal gs

/-- The generic shape of one streaming-read call over consecutive
segments: within the current segment resume at row `offInto / w`, run the
row loop, stop if it broke, otherwise recurse with the byte offset into
the next segment (`read_offset + bytes_written - total_size_so_far`). -/
def segRead : List Seg → Nat → Nat → List Nat × Nat × Bool
  | [], _, cap => ([], cap, true)
  | g :: gs, offInto, cap =>
    let start := offInto / g.w
    let r := writeRows g.mem g.pitch g.w start (g.rows - start) cap
    if r.2.2 = false then (r.1, r.2.1, false)
    else
      let rest := segRead gs (offInto + r.1.length - g.rows * g.w) r.2.1
      (r.1 ++ rest.1, rest.2.1, rest.2.2)

/-- A cursor value that lies on a row boundary of the segmented frame:
either a whole number of rows into the current segment, or past it and on
a boundary of the rest.  Streaming-read cursors always satisfy this. -/
def SegBoundary : List Seg → Nat → Prop
  | [], off => off = 0
  | g :: gs, off =>
    (∃ r, r ≤ g.rows ∧ off = r * g.w)
    ∨ (∃ off2, SegBoundary gs off2 ∧ off = g.rows * g.w + off2)

/-- The three segments of an `IyuvOrI420`/`YV12` surface. -/
def PlanarSurf.segs (s : PlanarSurf) : List Seg :=
  [⟨s.memY, s.pitch, s.w, s.h⟩,
   ⟨s.memU, s.pitch / 2, s.w / 2, s.h / 2⟩,
   ⟨s.memV, s.pitch / 2, s.w / 2, s.h / 2⟩]

/-- The two segments of an NV12 surface. -/
def Nv12Surf.segs (s : Nv12Surf) : List Seg :=
  [⟨s.memY, s.pitch, s.w, s.h⟩, ⟨s.memUV, s.pitch, s.w, s.h / 2⟩]

/-- Row-boundary cursors of a planar surface. -/
def PlanarSurf.Boundary (s : PlanarSurf) (off : Nat) : Prop :=
  SegBoundary s.segs off

/-- Row-boundary cursors of an NV12 surface. -/
def Nv12Surf.Boundary (s : Nv12Surf) (off : Nat) : Prop :=
  SegBoundary s.segs off

def sampleSurf : PlanarSurf :=
  { memY := fun i => i, memU := fun i => 100 + i, memV := fun i => 200 + i,
    w := 2, h := 2, pitch := 4 }

/-- A concrete 2x2 planar surface (pitch 2) used as a witness instance. -/
def sampleNv12 : Nv12Surf :=
  { memY := fun i => i, memUV := fun i => 50 + i, w := 2, h := 2, pitch := 2 }

/-- Behaviour of `Bitstream::write` on states satisfying the invariant:
the logical content grows by exactly the accepted prefix of the input,
the invariant is preserved, the capacity is unchanged, and (when the
buffer was not full) the offset ends at 0. -/
lemma Bitstream.write_spec (s : Bitstream) (xs : List Nat) (hinv : s.inv) :
    (s.write xs).1.content
      = s.content ++ xs.take (min (s.buffer.length - s.dataLength) xs.length)
    ∧ (s.write xs).2 = min (s.buffer.length - s.dataLength) xs.length
    ∧ (s.write xs).1.inv
    ∧ (s.write xs).1.dataLength
      = s.dataLength + min (s.buffer.length - s.dataLength) xs.length
    ∧ (s.write xs).1.buffer.length = s.buffer.length
    ∧ (s.dataLength < s.buffer.length → (s.write xs).1.dataOffset = 0)
    ∧ (s.dataOffset = 0 → (s.write xs).1.dataOffset = 0) := by
  obtain ⟨buf, off, len⟩ := s
  simp only [Bitstream.inv] at hinv
  by_cases hfull : buf.length ≤ len
  · have hz : buf.length - len = 0 := by omega
    have hw : Bitstream.write ⟨buf, off, len⟩ xs = (⟨buf, off, len⟩, 0) := by
      simp [Bitstream.write, hfull]
    refine ⟨?_, ?_, ?_, ?_, ?_, ?_, ?_⟩
    · simp [hw, hz]
    · simp [hw, hz]
    · simpa [hw, Bitstream.inv] using hinv
    · simp [hw, hz]
    · simp [hw]
    · intro hlt
      simp only at hlt
      exact absurd hlt (by omega)
    · intro h0
      simpa [hw] using h0
  · push_neg at hfull
    -- the compacted buffer and its key properties
    set buffer1 : List Nat :=
      if 0 < off then (buf.drop off).take len ++ buf.drop len else buf with hb1
    have hb1len : buffer1.length = buf.length := by
      rw [hb1]
      by_cases hoff : 0 < off
      · simp only [hoff, if_true, List.length_append, List.length_take,
          List.length_drop]
        omega
      · simp [hoff]
    have hb1take : buffer1.take len = (buf.drop off).take len := by
      rw [hb1]
      by_cases hoff : 0 < off
      · rw [if_pos hoff]
        exact List.take_left' (by
          simp only [List.length_take, List.length_drop]
          omega)
      · have hoff0 : off = 0 := by omega
        simp [hoff, hoff0]
    set copyLen := min (buf.length - len) xs.length with hcl
    have hxs : (xs.take copyLen).length = copyLen := by
      simp only [List.length_take]
      omega
    have hwr : (Bitstream.write ⟨buf, off, len⟩ xs)
        = ({ buffer := buffer1.take len ++ xs.take copyLen
                ++ buffer1.drop (len + copyLen),
             dataOffset := 0, dataLength := len + copyLen }, copyLen) := by
      simp only [Bitstream.write, hb1]
      rw [if_neg (by simpa using hfull)]
      simp only [← hb1, hb1len]
    have hb1takelen : (buffer1.take len).length = len := by
      simp only [List.length_take]
      omega
    have hcontent : ((buffer1.take len ++ xs.take copyLen
          ++ buffer1.drop (len + copyLen)).take (len + copyLen))
        = buffer1.take len ++ xs.take copyLen := by
      exact List.take_left' (by rw [List.length_append, hb1takelen, hxs])
    refine ⟨?_, ?_, ?_, ?_, ?_, ?_, ?_⟩
    · simp only [hwr, Bitstream.content, List.drop_zero]
      rw [hcontent, hb1take]
    · simp [hwr]
    · simp only [hwr, Bitstream.inv, List.length_append, hb1takelen, hxs,
        List.length_drop, hb1len]
      omega
    · simp [hwr]
    · simp only [hwr, List.length_append, hb1takelen, hxs, List.length_drop, hb1len]
      omega
    · intro _
      simp [hwr]
    · intro _
      simp [hwr]

/-- Behaviour of `Bitstream::read` on invariant states. -/
lemma Bitstream.read_spec (s : Bitstream) (cap : Nat) (hinv : s.inv) :
    (s.read cap).2 = s.buffer.take (min cap s.dataLength)
    ∧ (s.read cap).1.inv
    ∧ (s.read cap).1.buffer.length = s.buffer.length
    ∧ (s.read cap).1.dataOffset = s.dataOffset
    ∧ (s.read cap).1.dataLength = s.dataLength - min cap s.dataLength := by
  obtain ⟨buf, off, len⟩ := s
  simp only [Bitstream.inv] at hinv
  refine ⟨rfl, ?_, ?_, rfl, rfl⟩
  · simp only [Bitstream.read, Bitstream.inv, List.length_append, List.length_take,
      List.length_drop]
    omega
  · simp only [Bitstream.read, List.length_append, List.length_take, List.length_drop]
    omega

/-- A `read` on a front-aligned (offset 0) state splits the content into the
bytes returned and the content left behind. -/
lemma Bitstream.read_content_zero (s : Bitstream) (cap : Nat)
    (hoff : s.dataOffset = 0) (hinv : s.inv) :
    s.content = (s.read cap).2 ++ (s.read cap).1.content := by
  obtain ⟨buf, off, len⟩ := s
  simp only at hoff
  subst hoff
  simp only [Bitstream.inv] at hinv
  simp only [Bitstream.read, Bitstream.content, List.drop_zero]
  have h1 : buf.take len = buf.take (min cap len + (len - min cap len)) := by
    congr 1
    omega
  rw [h1, List.take_add]
  congr 1
  exact (List.take_left' (by
    simp only [List.length_take, List.length_drop]
    omega)).symm

/-- Draining a front-aligned state with enough total capacity returns
exactly the logical content. -/
lemma Bitstream.readAll_drain (caps : List Nat) :
    ∀ s : Bitstream, s.inv → s.dataOffset = 0 → s.dataLength ≤ caps.sum →
      (s.readAll caps).2 = s.content := by
  induction caps with
  | nil =>
    intro s hinv hoff hsum
    have hlen : s.dataLength = 0 := by simpa using hsum
    simp [Bitstream.readAll, Bitstream.content, hlen]
  | cons c cs ih =>
    intro s hinv hoff hsum
    obtain ⟨hout, hinv', hcaplen, hoff', hlen'⟩ := s.read_spec c hinv
    have hsum' : (s.read c).1.dataLength ≤ cs.sum := by
      rw [hlen']
      simp only [List.sum_cons] at hsum
      omega
    have hrest := ih (s.read c).1 hinv' (by rw [hoff', hoff]) hsum'
    simp only [Bitstream.readAll]
    rw [hrest, ← s.read_content_zero c hoff hinv]

/-- C1: the Compressed Buffer is an observational FIFO byte queue.
(1) Any byte sequence `xs` with `xs.length ≤ capacity` written into an empty
bitstream is returned, in order, by any subsequent sequence of `read` calls
whose destination sizes sum to at least `xs.length`.
(2) On any invariant state, `write` changes the logical content (the
`data_length` bytes starting at `data_offset`) exactly by appending the
accepted prefix of the input, so the compaction `write` performs is
observationally transparent. -/
theorem bitstream_fifo_roundtrip :
    (∀ (buf xs : List Nat) (caps : List Nat),
      xs.length ≤ buf.length → xs.length ≤ caps.sum →
      (((Bitstream.withCodec buf).write xs).1.readAll caps).2 = xs)
    ∧ (∀ (s : Bitstream) (xs : List Nat), s.inv →
      (s.write xs).1.content
        = s.content ++ xs.take (min (s.buffer.length - s.dataLength) xs.length)) := by
  constructor
  · intro buf xs caps hfit hsum
    have hinv0 : (Bitstream.withCodec buf).inv := by
      simp [Bitstream.withCodec, Bitstream.inv]
    obtain ⟨hcontent, hcount, hinv1, hlen1, hcap1, hoffw, hoffz⟩ :=
      (Bitstream.withCodec buf).write_spec xs hinv0
    have hmin : min ((Bitstream.withCodec buf).buffer.length
        - (Bitstream.withCodec buf).dataLength) xs.length = xs.length := by
      simp [Bitstream.withCodec]
      omega
    have hcontent1 : ((Bitstream.withCodec buf).write xs).1.content = xs := by
      rw [hcontent, hmin]
      simp [Bitstream.withCodec, Bitstream.content]
    have hlen1' : ((Bitstream.withCodec buf).write xs).1.dataLength = xs.length := by
      rw [hlen1, hmin]
      simp [Bitstream.withCodec]
    have hoff1 : ((Bitstream.withCodec buf).write xs).1.dataOffset = 0 := by
      apply hoffz
      simp [Bitstream.withCodec]
    rw [Bitstream.readAll_drain caps _ hinv1 hoff1 (by rw [hlen1']; exact hsum),
      hcontent1]
  · intro s xs hinv
    exact (s.write_spec xs hinv).1

/-- C1 witness: concrete instance of both conjuncts. -/
theorem bitstream_fifo_roundtrip_witness :
    ((((Bitstream.withCodec [0, 0, 0, 0]).write [1, 2, 3]).1.readAll [2, 2]).2
      = [1, 2, 3])
    ∧ ((Bitstream.mk [10, 20, 30, 40] 2 2).write [7]).1.content
      = (Bitstream.mk [10, 20, 30, 40] 2 2).content
        ++ [7].take (min ((Bitstream.mk [10, 20, 30, 40] 2 2).buffer.length
              - (Bitstream.mk [10, 20, 30, 40] 2 2).dataLength) [7].length) :=
  ⟨bitstream_fifo_roundtrip.1 [0, 0, 0, 0] [1, 2, 3] [2, 2] (by decide) (by decide),
   bitstream_fifo_roundtrip.2 (Bitstream.mk [10, 20, 30, 40] 2 2) [7] (by decide)⟩

/-- C2: evaluation of `Bitstream::read` at a state with `data_offset = 2`,
`data_length = 2`, backing bytes `[10, 20, 30, 40]` (invariant holds).
The code returns the two bytes at positions 0 and 1 of the backing buffer
(`[10, 20]`), not the two bytes starting at `data_offset`
(`[30, 40]`) as the claim states: `read` ignores `data_offset`. -/
theorem bitstream_read_ignores_offset :
    ((Bitstream.mk [10, 20, 30, 40] 2 2).read 2).2 = [10, 20]
    ∧ ((Bitstream.mk [10, 20, 30, 40] 2 2).read 2).2
      ≠ ((Bitstream.mk [10, 20, 30, 40] 2 2).buffer.drop
          (Bitstream.mk [10, 20, 30, 40] 2 2).dataOffset).take 2
    ∧ (Bitstream.mk [10, 20, 30, 40] 2 2).inv := by decide

/-- C3 counterexample: `write` with an empty input returns 0 on a bitstream
that is not full (capacity 4, `data_length` 0), so "returns 0 only when the
buffer is already full" is false as stated. -/
theorem bitstream_write_zero_counterexample :
    ((Bitstream.mk [0, 0, 0, 0] 0 0).write []).2 = 0
    ∧ (Bitstream.mk [0, 0, 0, 0] 0 0).dataLength
      < (Bitstream.mk [0, 0, 0, 0] 0 0).buffer.length := by decide

/-- C3 (amended): on a full bitstream `write` returns `Ok(0)` (never an
error) and leaves the whole state — backing bytes, `data_offset` and
`data_length` — unchanged; and on any invariant state `write` returns 0
exactly when the buffer is already full or the input is empty. -/
theorem bitstream_write_backpressure (s : Bitstream) (xs : List Nat)
    (hinv : s.inv) :
    (s.buffer.length ≤ s.dataLength → s.write xs = (s, 0))
    ∧ ((s.write xs).2 = 0
        ↔ s.buffer.length ≤ s.dataLength ∨ xs = []) := by
  constructor
  · intro hfull
    simp [Bitstream.write, hfull]
  · obtain ⟨-, hcount, -, -, -, -, -⟩ := s.write_spec xs hinv
    rw [hcount]
    constructor
    · intro h
      rcases Nat.min_eq_zero_iff.mp h with h0 | h0
      · left
        omega
      · right
        exact List.length_eq_zero.mp h0
    · intro h
      rcases h with h | h
      · have h0 : s.buffer.length - s.dataLength = 0 := by omega
        simp [h0]
      · simp [h]

/-- C3 witness: the amended theorem applied at a full bitstream and at a
non-full one with empty input. -/
theorem bitstream_write_backpressure_witness :
    ((Bitstream.mk [9, 9] 0 2).write [1] = (Bitstream.mk [9, 9] 0 2, 0))
    ∧ (((Bitstream.mk [0, 0, 0] 0 1).write []).2 = 0
        ↔ (Bitstream.mk [0, 0, 0] 0 1).buffer.length
            ≤ (Bitstream.mk [0, 0, 0] 0 1).dataLength ∨ ([] : List Nat) = []) :=
  ⟨(bitstream_write_backpressure (Bitstream.mk [9, 9] 0 2) [1] (by decide)).1
      (by decide),
   (bitstream_write_backpressure (Bitstream.mk [0, 0, 0] 0 1) [] (by decide)).2⟩

/-- C9: the invariant `data_offset + data_length ≤ capacity` holds for the
state built by `with_codec` and is preserved by `write` and `read`;
moreover whenever `write` gets past its full-buffer early return (the only
path on which compaction can run), the resulting `data_offset` is 0. -/
theorem bitstream_invariant :
    (∀ buf : List Nat, (Bitstream.withCodec buf).inv)
    ∧ (∀ (s : Bitstream) (xs : List Nat), s.inv →
        (s.write xs).1.inv
        ∧ (s.dataLength < s.buffer.length → (s.write xs).1.dataOffset = 0))
    ∧ (∀ (s : Bitstream) (cap : Nat), s.inv → (s.read cap).1.inv) := by
  refine ⟨?_, ?_, ?_⟩
  · intro buf
    simp [Bitstream.withCodec, Bitstream.inv]
  · intro s xs hinv
    obtain ⟨-, -, hinv', -, -, hoff, -⟩ := s.write_spec xs hinv
    exact ⟨hinv', hoff⟩
  · intro s cap hinv
    exact (s.read_spec cap hinv).2.1

/-- C9 witness: the invariant theorem applied at concrete states. -/
theorem bitstream_invariant_witness :
    (Bitstream.withCodec [0, 0]).inv
    ∧ ((Bitstream.mk [10, 20, 30, 40] 2 2).write [7]).1.inv
    ∧ ((Bitstream.mk [10, 20, 30, 40] 2 2).read 1).1.inv :=
  ⟨bitstream_invariant.1 [0, 0],
   (bitstream_invariant.2.1 (Bitstream.mk [10, 20, 30, 40] 2 2) [7] (by decide)).1,
   bitstream_invariant.2.2 (Bitstream.mk [10, 20, 30, 40] 2 2) 1 (by decide)⟩

/-- C4: the plane size law.  For each 4:2:0 planar or semi-planar format
(IyuvOrI420, YV12, NV12) and all pitch/crop values, `y()` has byte length
`crop_height * pitch` and `u()`/`v()` have byte length
`(crop_height / 2) * (pitch / 2)`; for the packed format Rgb4OrBgra the
whole-frame view `b()` has byte length `crop_height * pitch`.  At crop
4x4 with stride 8 the luma plane length is 32 and each chroma plane
length is 8. -/
theorem framesurface_plane_size_law :
    (∀ pitch cropHeight : Nat,
      FrameSurface.yLen .IyuvOrI420 pitch cropHeight = some (cropHeight * pitch)
      ∧ FrameSurface.yLen .YV12 pitch cropHeight = some (cropHeight * pitch)
      ∧ FrameSurface.yLen .NV12 pitch cropHeight = some (cropHeight * pitch)
      ∧ FrameSurface.uLen .IyuvOrI420 pitch cropHeight
          = some ((cropHeight / 2) * (pitch / 2))
      ∧ FrameSurface.uLen .YV12 pitch cropHeight
          = some ((cropHeight / 2) * (pitch / 2))
      ∧ FrameSurface.uLen .NV12 pitch cropHeight
          = some ((cropHeight / 2) * (pitch / 2))
      ∧ FrameSurface.vLen .IyuvOrI420 pitch cropHeight
          = some ((cropHeight / 2) * (pitch / 2))
      ∧ FrameSurface.vLen .YV12 pitch cropHeight
          = some ((cropHeight / 2) * (pitch / 2))
      ∧ FrameSurface.vLen .NV12 pitch cropHeight
          = some ((cropHeight / 2) * (pitch / 2))
      ∧ FrameSurface.bLen .Rgb4OrBgra pitch cropHeight = some (cropHeight * pitch))
    ∧ FrameSurface.yLen .IyuvOrI420 8 4 = some 32
    ∧ FrameSurface.uLen .IyuvOrI420 8 4 = some 8
    ∧ FrameSurface.vLen .IyuvOrI420 8 4 = some 8 := by
  refine ⟨?_, by decide, by decide, by decide⟩
  intro pitch cropHeight
  refine ⟨rfl, rfl, rfl, rfl, rfl, rfl, rfl, rfl, rfl, rfl⟩

/-- C10: in the packed Rgb4OrBgra format the four channel accessors return
views of staggered lengths into the interleaved frame: `b()` covers
`crop_height * pitch` bytes while `g()`, `r()`, `a()` are 1, 2 and 3
bytes shorter respectively, so only `b()` covers the full frame of the
packed-format size law.  (The hypothesis `3 ≤ crop_height * pitch` keeps
the `usize` subtractions of the source meaningful.) -/
theorem framesurface_bgra_staggered_channels (pitch cropHeight : Nat)
    (h : 3 ≤ cropHeight * pitch) :
    FrameSurface.bLen .Rgb4OrBgra pitch cropHeight = some (cropHeight * pitch)
    ∧ FrameSurface.gLen .Rgb4OrBgra pitch cropHeight = some (cropHeight * pitch - 1)
    ∧ FrameSurface.rLen .Rgb4OrBgra pitch cropHeight = some (cropHeight * pitch - 2)
    ∧ FrameSurface.aLen .Rgb4OrBgra pitch cropHeight = some (cropHeight * pitch - 3)
    ∧ cropHeight * pitch - 1 < cropHeight * pitch
    ∧ cropHeight * pitch - 2 < cropHeight * pitch - 1
    ∧ cropHeight * pitch - 3 < cropHeight * pitch - 2 := by
  refine ⟨rfl, rfl, rfl, rfl, ?_, ?_, ?_⟩ <;> omega

/-- C10 witness: the staggered-channel theorem at pitch 8, crop height 4. -/
theorem framesurface_bgra_staggered_channels_witness :
    FrameSurface.bLen .Rgb4OrBgra 8 4 = some 32
    ∧ FrameSurface.gLen .Rgb4OrBgra 8 4 = some 31
    ∧ FrameSurface.rLen .Rgb4OrBgra 8 4 = some 30
    ∧ FrameSurface.aLen .Rgb4OrBgra 8 4 = some 29 := by
  obtain ⟨hb, hg, hr, ha, -, -, -⟩ :=
    framesurface_bgra_staggered_channels 8 4 (by decide)
  exact ⟨hb, hg, hr, ha⟩

/-- C8: for each of the five allocator callback roles, invoking the
installed trampoline when no handler is registered for that role returns
the well-defined failure status `MFX_ERR_MEMORY_ALLOC` instead of
trapping (`none`, which models a panic/abort, is never produced on the
no-handler path). -/
theorem frameallocator_missing_handler_status (t : FrameAllocatorTable)
    (arg : Nat) :
    (t.alloc_callback = none → trampolineAlloc t arg = some MfxStatus.MemoryAlloc)
    ∧ (t.lock_callback = none → trampolineLock t arg = some MfxStatus.MemoryAlloc)
    ∧ (t.unlock_callback = none →
        trampolineUnlock t arg = some MfxStatus.MemoryAlloc)
    ∧ (t.get_hdl_callback = none →
        trampolineGetHdl t arg = some MfxStatus.MemoryAlloc)
    ∧ (t.free_callback = none → trampolineFree t arg = some MfxStatus.MemoryAlloc) := by
  refine ⟨?_, ?_, ?_, ?_, ?_⟩ <;>
    intro h <;>
    simp [trampolineAlloc, trampolineLock, trampolineUnlock, trampolineGetHdl,
      trampolineFree, h]

/-- C8 witness: the empty handler table. -/
theorem frameallocator_missing_handler_status_witness :
    trampolineAlloc ⟨none, none, none, none, none⟩ 0 = some MfxStatus.MemoryAlloc
    ∧ trampolineLock ⟨none, none, none, none, none⟩ 0 = some MfxStatus.MemoryAlloc
    ∧ trampolineUnlock ⟨none, none, none, none, none⟩ 0 = some MfxStatus.MemoryAlloc
    ∧ trampolineGetHdl ⟨none, none, none, none, none⟩ 0 = some MfxStatus.MemoryAlloc
    ∧ trampolineFree ⟨none, none, none, none, none⟩ 0 = some MfxStatus.MemoryAlloc := by
  obtain ⟨h1, h2, h3, h4, h5⟩ :=
    frameallocator_missing_handler_status ⟨none, none, none, none, none⟩ 0
  exact ⟨h1 rfl, h2 rfl, h3 rfl, h4 rfl, h5 rfl⟩

/-- C7: evaluation of the constructor model.  Whenever the caller's
location differs from the constructor's stack slot (always, for a value
returned by move), the stored context pointer does NOT refer to the
`FrameAllocator` value that holds the handler table — contradicting the
claim that this is established by construction.  The source itself says
so: `// FIXME: I think this pointer is invalidated as soon as we put
inner in the struct` (src/frameallocator.rs line 48). -/
theorem frameallocator_pthis_dangles (localAddr retAddr : Nat)
    (h : localAddr ≠ retAddr) :
    (FrameAllocator.newLoc localAddr retAddr).pthis
      ≠ (FrameAllocator.newLoc localAddr retAddr).addr := by
  simpa [FrameAllocator.newLoc] using h

/-- C7 witness: stack slot at address 0, returned value at address 1. -/
theorem frameallocator_pthis_dangles_witness :
    (FrameAllocator.newLoc 0 1).pthis ≠ (FrameAllocator.newLoc 0 1).addr :=
  frameallocator_pthis_dangles 0 1 (by decide)

/-- C6 counterexample: when the source yields fewer bytes than one frame
(`eofShort`), `read_raw_frame` returns the retryable `MoreData` error with
the surface STILL MAPPED (`true`), so "the surface is unmapped before
`read_raw_frame` returns, regardless of success or failure" is false as
stated: the early `return` at src/lib.rs line 685 skips the `unmap` at
line 731. -/
theorem read_raw_frame_unmap_counterexample :
    FrameSurface.readRawFrame ReadExactOutcome.eofShort FourCC.YV12
      = some (true, Except.error MfxStatus.MoreData)
    ∧ ∀ r, FrameSurface.readRawFrame ReadExactOutcome.eofShort FourCC.YV12
        = some (false, r) → False := by
  refine ⟨rfl, ?_⟩
  intro r h
  simp [FrameSurface.readRawFrame] at h

/-- C6 (amended): `read_raw_frame` maps the surface for write access; a
short source yields the retryable `MoreData` error and any other I/O
failure the fatal `Unknown` error, but on both of those early-return
paths the surface is left mapped (it is unmapped later, on drop); only
when the full frame was read from the source is the surface unmapped
before returning, and the implemented formats then succeed. -/
theorem read_raw_frame_behaviour (format : FourCC) :
    readRawFrameMapFlag = MemoryFlag.write
    ∧ FrameSurface.readRawFrame ReadExactOutcome.eofShort format
        = some (true, Except.error MfxStatus.MoreData)
    ∧ FrameSurface.readRawFrame ReadExactOutcome.ioError format
        = some (true, Except.error MfxStatus.Unknown)
    ∧ FrameSurface.readRawFrame ReadExactOutcome.filled FourCC.YV12
        = some (false, Except.ok ())
    ∧ FrameSurface.readRawFrame ReadExactOutcome.filled FourCC.IyuvOrI420
        = some (false, Except.ok ())
    ∧ FrameSurface.readRawFrame ReadExactOutcome.filled FourCC.Rgb4OrBgra
        = some (false, Except.ok ()) :=
  ⟨rfl, rfl, rfl, rfl, rfl, rfl⟩

lemma planeRow_length (mem : Nat → Nat) (pitch w i : Nat) :
    (planeRow mem pitch w i).length = w := by
  simp [planeRow]

lemma catRows_length (mem : Nat → Nat) (pitch w : Nat) :
    ∀ n i, (catRows mem pitch w i n).length = n * w := by
  intro n
  induction n with
  | zero => intro i; simp [catRows]
  | succ n ih =>
    intro i
    simp only [catRows, List.length_append, planeRow_length, ih, Nat.succ_mul]
    omega

lemma catRows_add (mem : Nat → Nat) (pitch w : Nat) :
    ∀ m n i, catRows mem pitch w i (m + n)
      = catRows mem pitch w i m ++ catRows mem pitch w (i + m) n := by
  intro m
  induction m with
  | zero => intro n i; simp [catRows]
  | succ m ih =>
    intro n i
    have h1 : m + 1 + n = (m + n) + 1 := by omega
    simp only [h1, catRows, ih, List.append_assoc]
    have h2 : i + 1 + m = i + (m + 1) := by omega
    rw [h2]

/-- Closed form of the row loop: it emits `min n (cap / w)` whole rows,
consumes that many `w`-byte blocks of the destination, and completes
exactly when all `n` rows fit. -/
lemma writeRows_eq (mem : Nat → Nat) (pitch w : Nat) (hw : 0 < w) :
    ∀ n i cap, writeRows mem pitch w i n cap
      = (catRows mem pitch w i (min n (cap / w)),
         cap - min n (cap / w) * w,
         decide (n ≤ cap / w)) := by
  intro n
  induction n with
  | zero =>
    intro i cap
    simp [writeRows, catRows]
  | succ n ih =>
    intro i cap
    by_cases hcap : w ≤ cap
    · have h1 : 1 ≤ cap / w := (Nat.one_le_div_iff hw).mpr hcap
      have hdiv : (cap - w) / w = cap / w - 1 := by
        conv_rhs => rw [← Nat.sub_add_cancel hcap, Nat.add_div_right _ hw]
        exact (Nat.succ_sub_one _).symm
      have hmin : min (n + 1) (cap / w) = min n ((cap - w) / w) + 1 := by
        rw [hdiv]
        revert h1
        generalize cap / w = q
        intro h1
        omega
      simp only [writeRows]
      rw [if_pos (⟨hw, hcap⟩ : 0 < w ∧ w ≤ cap), ih (i + 1) (cap - w)]
      simp only [Prod.mk.injEq]
      refine ⟨?_, ?_, ?_⟩
      · rw [hmin, catRows]
      · rw [hmin, Nat.succ_mul]
        have hfit : min n ((cap - w) / w) * w ≤ cap - w := by
          calc min n ((cap - w) / w) * w ≤ ((cap - w) / w) * w :=
                Nat.mul_le_mul_right w (Nat.min_le_right _ _)
            _ ≤ cap - w := Nat.div_mul_le_self _ _
        obtain ⟨X, hX⟩ : ∃ X, min n ((cap - w) / w) * w = X := ⟨_, rfl⟩
        rw [hX] at hfit ⊢
        omega
      · rw [decide_eq_decide, hdiv]
        revert h1
        generalize cap / w = q
        intro h1
        omega
    · have hdiv0 : cap / w = 0 := Nat.div_eq_of_lt (by omega)
      simp only [writeRows]
      rw [if_neg (by omega)]
      simp [hdiv0, catRows]

/-- Dropping `m` whole rows from a segment followed by anything. -/
lemma drop_catRows (mem : Nat → Nat) (pitch w : Nat) (rows m : Nat)
    (hm : m ≤ rows) (X : List Nat) :
    (catRows mem pitch w 0 rows ++ X).drop (m * w)
      = catRows mem pitch w m (rows - m) ++ X := by
  have hsplit : catRows mem pitch w 0 rows
      = catRows mem pitch w 0 m ++ catRows mem pitch w m (rows - m) := by
    have h1 : rows = m + (rows - m) := by omega
    conv_lhs => rw [h1, catRows_add]
    simp
  rw [hsplit, List.append_assoc]
  exact List.drop_left' (by rw [catRows_length])

/-- Dropping a whole leading segment plus `n` more bytes. -/
lemma drop_seg (A X : List Nat) (n m : Nat) (hA : A.length = m) :
    (A ++ X).drop (m + n) = X.drop n := by
  subst hA
  exact List.drop_append n

lemma segBoundary_zero : ∀ segs : List Seg, SegBoundary segs 0 := by
  intro segs
  cases segs with
  | nil => rfl
  | cons g gs => exact Or.inl ⟨0, by omega, by omega⟩

lemma segFull_length : ∀ segs : List Seg, (segFull segs).length = segTotal segs := by
  intro segs
  induction segs with
  | nil => rfl
  | cons g gs ih =>
    simp only [segFull, segTotal, List.length_append, catRows_length, ih]

/-- Evaluation of one `segRead` step when the current segment's row loop
breaks (the destination cannot hold all remaining rows of the segment). -/
lemma segRead_cons_break (g : Seg) (gs : List Seg) (off cap : Nat)
    (hgw : 0 < g.w) (hnd : ¬ (g.rows - off / g.w ≤ cap / g.w)) :
    segRead (g :: gs) off cap
      = (catRows g.mem g.pitch g.w (off / g.w) (cap / g.w),
         cap - (cap / g.w) * g.w, false) := by
  have hmin : min (g.rows - off / g.w) (cap / g.w) = cap / g.w :=
    Nat.min_eq_right (Nat.le_of_lt (Nat.lt_of_not_le hnd))
  show (if (writeRows g.mem g.pitch g.w (off / g.w) (g.rows - off / g.w) cap).2.2
        = false then _ else _) = _
  rw [writeRows_eq g.mem g.pitch g.w hgw]
  rw [if_pos (by simp [hnd])]
  rw [hmin]

/-- Evaluation of one `segRead` step when the current segment's row loop
completes, handing the leftover destination to the remaining segments. -/
lemma segRead_cons_done (g : Seg) (gs : List Seg) (off cap : Nat)
    (hgw : 0 < g.w) (hdone : g.rows - off / g.w ≤ cap / g.w) :
    segRead (g :: gs) off cap
      = (catRows g.mem g.pitch g.w (off / g.w) (g.rows - off / g.w)
           ++ (segRead gs (off + (g.rows - off / g.w) * g.w - g.rows * g.w)
                 (cap - (g.rows - off / g.w) * g.w)).1,
         (segRead gs (off + (g.rows - off / g.w) * g.w - g.rows * g.w)
            (cap - (g.rows - off / g.w) * g.w)).2.1,
         (segRead gs (off + (g.rows - off / g.w) * g.w - g.rows * g.w)
            (cap - (g.rows - off / g.w) * g.w)).2.2) := by
  have hmin : min (g.rows - off / g.w) (cap / g.w) = g.rows - off / g.w :=
    Nat.min_eq_left hdone
  show (if (writeRows g.mem g.pitch g.w (off / g.w) (g.rows - off / g.w) cap).2.2
        = false then _ else _) = _
  rw [writeRows_eq g.mem g.pitch g.w hgw]
  rw [if_neg (by simp [hdone])]
  rw [hmin]
  simp only [catRows_length]

/-- Main invariant of one streaming-read call over plane segments:
starting at a row boundary the call emits exactly a prefix of the
remaining frame, lands the cursor on a row boundary again, makes progress
whenever the destination can hold one row of every segment, and emits
nothing once the whole frame has been drained. -/
lemma segRead_step (segs : List Seg) (hw : ∀ g ∈ segs, 0 < g.w) :
    ∀ off cap, SegBoundary segs off →
      ((segRead segs off cap).1
          ++ (segFull segs).drop (off + (segRead segs off cap).1.length)
        = (segFull segs).drop off)
      ∧ SegBoundary segs (off + (segRead segs off cap).1.length)
      ∧ (off < segTotal segs → (∀ g ∈ segs, g.w ≤ cap) →
          0 < (segRead segs off cap).1.length)
      ∧ (segTotal segs ≤ off → (segRead segs off cap).1 = []) := by
  induction segs with
  | nil =>
    intro off cap hb
    have hoff : off = 0 := hb
    subst hoff
    refine ⟨rfl, rfl, ?_, fun _ => rfl⟩
    intro h _
    exact absurd h (by simp [segTotal])
  | cons g gs ih =>
    intro off cap hb
    have hgw : 0 < g.w := hw g (List.mem_cons_self g gs)
    have hgsw : ∀ g2 ∈ gs, 0 < g2.w := fun g2 h2 => hw g2 (List.mem_cons_of_mem g h2)
    have hfull : segFull (g :: gs)
        = catRows g.mem g.pitch g.w 0 g.rows ++ segFull gs := rfl
    have htotal : segTotal (g :: gs) = g.rows * g.w + segTotal gs := rfl
    rcases hb with ⟨r, hr, hoffr⟩ | ⟨off2, hb2, hoff2⟩
    · -- the cursor is r whole rows into the current segment
      subst hoffr
      have hstart : r * g.w / g.w = r := Nat.mul_div_cancel r hgw
      by_cases hdone : g.rows - r ≤ cap / g.w
      · -- the row loop completes; the rest of the destination goes on
        have hdone' : g.rows - r * g.w / g.w ≤ cap / g.w := by
          rw [hstart]
          exact hdone
        rw [segRead_cons_done g gs _ cap hgw hdone']
        simp only [hstart]
        have hend : r * g.w + (g.rows - r) * g.w = g.rows * g.w := by
          rw [← Nat.add_mul]
          congr 1
          omega
        have hoffInto : r * g.w + (g.rows - r) * g.w - g.rows * g.w = 0 := by
          omega
        rw [hoffInto]
        set c1 := cap - (g.rows - r) * g.w with hc1
        obtain ⟨ha0, hb0, hc0, hd0⟩ := ih hgsw 0 c1 (segBoundary_zero gs)
        set R := (segRead gs 0 c1).1 with hR
        have hlen : (catRows g.mem g.pitch g.w r (g.rows - r) ++ R).length
            = (g.rows - r) * g.w + R.length := by
          rw [List.length_append, catRows_length]
        have hdrop1 : (segFull (g :: gs)).drop (r * g.w)
            = catRows g.mem g.pitch g.w r (g.rows - r) ++ segFull gs := by
          rw [hfull]
          exact drop_catRows _ _ _ _ _ hr _
        have hdrop2 : (segFull (g :: gs)).drop (g.rows * g.w + R.length)
            = (segFull gs).drop R.length := by
          rw [hfull]
          exact drop_seg _ _ _ _ (catRows_length _ _ _ _ _)
        have hidx : r * g.w + ((g.rows - r) * g.w + R.length)
            = g.rows * g.w + R.length := by
          omega
        refine ⟨?_, ?_, ?_, ?_⟩
        · rw [hlen, hidx, hdrop2, hdrop1, List.append_assoc]
          congr 1
          simpa using ha0
        · right
          refine ⟨0 + R.length, hb0, ?_⟩
          rw [hlen]
          omega
        · intro hlt hcap
          rw [hlen]
          rcases Nat.lt_or_ge r g.rows with hrlt | hrge
          · have h1 : 1 * g.w ≤ (g.rows - r) * g.w :=
              Nat.mul_le_mul_right _ (by omega)
            omega
          · have hreq : r = g.rows := by omega
            have hz : g.rows - r = 0 := by omega
            have hc1cap : c1 = cap := by
              rw [hc1, hz]
              simp
            have hpos : 0 < R.length := by
              apply hc0
              · rw [htotal] at hlt
                have : r * g.w = g.rows * g.w := by rw [hreq]
                omega
              · intro g2 hg2
                rw [hc1cap]
                exact hcap g2 (List.mem_cons_of_mem g hg2)
            omega
        · intro htot
          rw [htotal] at htot
          have hle : r * g.w ≤ g.rows * g.w := Nat.mul_le_mul_right _ hr
          have hreq : r = g.rows :=
            Nat.eq_of_mul_eq_mul_right hgw (by omega)
          have hT : segTotal gs ≤ 0 := by omega
          have hz : g.rows - r = 0 := by omega
          rw [hz]
          simp [catRows, hd0 hT]
      · -- the row loop breaks inside the current segment
        have hnd' : ¬ (g.rows - r * g.w / g.w ≤ cap / g.w) := by
          rw [hstart]
          exact hdone
        rw [segRead_cons_break g gs _ cap hgw hnd']
        simp only [hstart]
        obtain ⟨q, hq⟩ : ∃ q, cap / g.w = q := ⟨_, rfl⟩
        rw [hq]
        have hqlt : q < g.rows - r := by
          rw [← hq]
          exact Nat.lt_of_not_le hdone
        have hlen : (catRows g.mem g.pitch g.w r q).length = q * g.w :=
          catRows_length _ _ _ _ _
        have hr2 : r + q ≤ g.rows := by omega
        refine ⟨?_, ?_, ?_, ?_⟩
        · rw [hlen]
          have hidx : r * g.w + q * g.w = (r + q) * g.w := (Nat.add_mul r q g.w).symm
          rw [hidx, hfull, drop_catRows _ _ _ _ _ hr2 _, drop_catRows _ _ _ _ _ hr _,
            ← List.append_assoc, ← catRows_add]
          congr 2
          omega
        · left
          refine ⟨r + q, hr2, ?_⟩
          rw [hlen, Nat.add_mul]
        · intro _ hcap
          rw [hlen]
          have hcapg : g.w ≤ cap := hcap g (List.mem_cons_self g gs)
          have h1 : 1 ≤ q := by
            rw [← hq]
            exact (Nat.one_le_div_iff hgw).mpr hcapg
          have h2 : 1 * g.w ≤ q * g.w := Nat.mul_le_mul_right _ h1
          omega
        · intro htot
          exfalso
          rw [htotal] at htot
          have hle : r * g.w ≤ g.rows * g.w := Nat.mul_le_mul_right _ hr
          have hrlt : r < g.rows := by omega
          have h1 : (r + 1) * g.w ≤ g.rows * g.w := Nat.mul_le_mul_right _ (by omega)
          have h2 : r * g.w + g.w = (r + 1) * g.w := (Nat.succ_mul r g.w).symm
          omega
    · -- the cursor is past the current segment
      subst hoff2
      obtain ⟨st, hst⟩ : ∃ st, (g.rows * g.w + off2) / g.w = st := ⟨_, rfl⟩
      have hge : g.rows ≤ st := by
        rw [← hst]
        exact (Nat.le_div_iff_mul_le hgw).mpr (Nat.le_add_right _ _)
      have hz : g.rows - (g.rows * g.w + off2) / g.w = 0 := by
        rw [hst]
        omega
      have hdone : g.rows - (g.rows * g.w + off2) / g.w ≤ cap / g.w := by
        rw [hz]
        exact Nat.zero_le _
      rw [segRead_cons_done g gs _ cap hgw hdone]
      rw [hz]
      have hoffInto : g.rows * g.w + off2 + 0 * g.w - g.rows * g.w = off2 := by
        omega
      have hcap0 : cap - 0 * g.w = cap := by omega
      rw [hoffInto, hcap0]
      obtain ⟨ha2, hb2', hc2, hd2⟩ := ih hgsw off2 cap hb2
      set R2 := (segRead gs off2 cap).1 with hR2
      have hemit : catRows g.mem g.pitch g.w ((g.rows * g.w + off2) / g.w) 0 ++ R2
          = R2 := by
        simp [catRows]
      rw [hemit]
      refine ⟨?_, ?_, ?_, ?_⟩
      · have hdropA : (segFull (g :: gs)).drop (g.rows * g.w + off2)
            = (segFull gs).drop off2 := by
          rw [hfull]
          exact drop_seg _ _ _ _ (catRows_length _ _ _ _ _)
        have hdropB : (segFull (g :: gs)).drop (g.rows * g.w + off2 + R2.length)
            = (segFull gs).drop (off2 + R2.length) := by
          rw [hfull, Nat.add_assoc]
          exact drop_seg _ _ _ _ (catRows_length _ _ _ _ _)
        rw [hdropA, hdropB]
        exact ha2
      · right
        refine ⟨off2 + R2.length, hb2', ?_⟩
        show g.rows * g.w + off2 + R2.length = g.rows * g.w + (off2 + R2.length)
        omega
      · intro hlt hcap
        rw [htotal] at hlt
        show 0 < R2.length
        exact hc2 (by omega) (fun g2 hg2 => hcap g2 (List.mem_cons_of_mem g hg2))
      · intro htot
        rw [htotal] at htot
        show R2 = []
        exact hd2 (by omega)

/-- A single call with a destination at least as large as the whole frame
emits the whole frame. -/
lemma segRead_all (segs : List Seg) (hw : ∀ g ∈ segs, 0 < g.w) :
    ∀ cap, segTotal segs ≤ cap →
      (segRead segs 0 cap).1 = segFull segs
      ∧ (segRead segs 0 cap).2.1 = cap - segTotal segs
      ∧ (segRead segs 0 cap).2.2 = true := by
  induction segs with
  | nil =>
    intro cap _
    exact ⟨rfl, by simp [segTotal, segRead], rfl⟩
  | cons g gs ih =>
    intro cap hcap
    have hgw : 0 < g.w := hw g (List.mem_cons_self g gs)
    have hgsw : ∀ g2 ∈ gs, 0 < g2.w := fun g2 h2 => hw g2 (List.mem_cons_of_mem g h2)
    have htotal : segTotal (g :: gs) = g.rows * g.w + segTotal gs := rfl
    have hstart : (0 : Nat) / g.w = 0 := Nat.zero_div _
    have hdone : g.rows - 0 / g.w ≤ cap / g.w := by
      rw [hstart, Nat.sub_zero]
      refine (Nat.le_div_iff_mul_le hgw).mpr ?_
      rw [htotal] at hcap
      omega
    rw [segRead_cons_done g gs 0 cap hgw hdone, hstart, Nat.sub_zero]
    have hoffInto : 0 + g.rows * g.w - g.rows * g.w = 0 := by omega
    rw [hoffInto]
    have hc1 : segTotal gs ≤ cap - g.rows * g.w := by
      rw [htotal] at hcap
      omega
    obtain ⟨h1, h2, h3⟩ := ih hgsw (cap - g.rows * g.w) hc1
    refine ⟨?_, ?_, ?_⟩
    · show catRows g.mem g.pitch g.w 0 g.rows
          ++ (segRead gs 0 (cap - g.rows * g.w)).1 = segFull (g :: gs)
      rw [h1]
      rfl
    · show (segRead gs 0 (cap - g.rows * g.w)).2.1 = cap - segTotal (g :: gs)
      rw [h2, htotal]
      omega
    · exact h3

/-- `planarRead` is the three-segment instance of `segRead`. -/
lemma planarRead_eq_segRead (s : PlanarSurf) (hw2 : 0 < s.w / 2) (off cap : Nat) :
    planarRead s off cap = (segRead s.segs off cap).1 := by
  have hw : 0 < s.w := by omega
  simp only [planarRead, PlanarSurf.segs, segRead]
  set r1 := writeRows s.memY s.pitch s.w (off / s.w) (s.h - off / s.w) cap with hr1
  by_cases h1 : r1.2.2 = false
  · simp [h1]
  · -- the Y loop completed
    have h1t : r1.2.2 = true := by
      cases hb : r1.2.2
      · exact absurd hb h1
      · rfl
    -- the Y loop emitted everything from row off/s.w on
    have hkey1 : s.h * s.w ≤ off + r1.1.length := by
      obtain ⟨q, hq⟩ : ∃ q, off / s.w = q := ⟨_, rfl⟩
      have hqle : q * s.w ≤ off := by
        rw [← hq]
        exact Nat.div_mul_le_self off s.w
      by_cases hqh : q ≤ s.h
      · have : r1.1.length = (s.h - q) * s.w := by
          rw [hr1, hq, writeRows_eq s.memY s.pitch s.w hw]
          simp only [catRows_length]
          have hd : s.h - q ≤ cap / s.w := by
            by_contra hnd
            rw [hr1, hq, writeRows_eq s.memY s.pitch s.w hw] at h1t
            simp only [decide_eq_true_eq] at h1t
            exact hnd h1t
          rw [Nat.min_eq_left hd]
        rw [this, Nat.sub_mul]
        omega
      · have : s.h * s.w ≤ q * s.w := Nat.mul_le_mul_right _ (by omega)
        omega
    have hcomm : s.w * s.h = s.h * s.w := Nat.mul_comm _ _
    rw [if_neg h1, if_neg h1, hcomm]
    set c1 := r1.2.1 with hc1
    set off2 := off + r1.1.length - s.h * s.w with hoff2
    set r2 := writeRows s.memU (s.pitch / 2) (s.w / 2) (off2 / (s.w / 2))
        (s.h / 2 - off2 / (s.w / 2)) c1 with hr2
    by_cases h2 : r2.2.2 = false
    · simp [h2]
    · have h2t : r2.2.2 = true := by
        cases hb : r2.2.2
        · exact absurd hb h2
        · rfl
      have hkey2 : (s.h / 2) * (s.w / 2) ≤ off2 + r2.1.length := by
        obtain ⟨q, hq⟩ : ∃ q, off2 / (s.w / 2) = q := ⟨_, rfl⟩
        have hqle : q * (s.w / 2) ≤ off2 := by
          rw [← hq]
          exact Nat.div_mul_le_self off2 (s.w / 2)
        by_cases hqh : q ≤ s.h / 2
        · have : r2.1.length = (s.h / 2 - q) * (s.w / 2) := by
            rw [hr2, hq, writeRows_eq s.memU (s.pitch / 2) (s.w / 2) hw2]
            simp only [catRows_length]
            have hd : s.h / 2 - q ≤ c1 / (s.w / 2) := by
              by_contra hnd
              rw [hr2, hq, writeRows_eq s.memU (s.pitch / 2) (s.w / 2) hw2] at h2t
              simp only [decide_eq_true_eq] at h2t
              exact hnd h2t
            rw [Nat.min_eq_left hd]
          rw [this, Nat.sub_mul]
          omega
        · have : (s.h / 2) * (s.w / 2) ≤ q * (s.w / 2) :=
            Nat.mul_le_mul_right _ (by omega)
          omega
      have hcomm2 : s.w / 2 * (s.h / 2) = s.h / 2 * (s.w / 2) := Nat.mul_comm _ _
      rw [if_neg h2, if_neg h2, hcomm2]
      have harg : off + r1.1.length + r2.1.length - s.h * s.w - s.h / 2 * (s.w / 2)
          = off2 + r2.1.length - s.h / 2 * (s.w / 2) := by
        rw [hoff2]
        omega
      rw [harg]
      set r3 := writeRows s.memV (s.pitch / 2) (s.w / 2)
          ((off2 + r2.1.length - s.h / 2 * (s.w / 2)) / (s.w / 2))
          (s.h / 2 - (off2 + r2.1.length - s.h / 2 * (s.w / 2)) / (s.w / 2))
          r2.2.1 with hr3
      by_cases h3 : r3.2.2 = false
      · simp [h3, List.append_assoc]
      · simp [h3, List.append_assoc]

/-- `nv12Read` is the two-segment instance of `segRead`. -/
lemma nv12Read_eq_segRead (s : Nv12Surf) (off cap : Nat) :
    nv12Read s off cap = (segRead s.segs off cap).1 := by
  simp only [nv12Read, Nv12Surf.segs, segRead]
  set r1 := writeRows s.memY s.pitch s.w (off / s.w) (s.h - off / s.w) cap with hr1
  by_cases h1 : r1.2.2 = false
  · simp [h1]
  · have h1t : r1.2.2 = true := by
      cases hb : r1.2.2
      · exact absurd hb h1
      · rfl
    have hcomm : s.w * s.h = s.h * s.w := Nat.mul_comm _ _
    rw [if_neg h1, if_neg h1, hcomm]
    set r2 := writeRows s.memUV s.pitch s.w
        ((off + r1.1.length - s.h * s.w) / s.w)
        (s.h / 2 - (off + r1.1.length - s.h * s.w) / s.w) r1.2.1 with hr2
    by_cases h2 : r2.2.2 = false
    · simp [h2]
    · simp [h2]

lemma segBoundary_total : ∀ segs : List Seg, SegBoundary segs (segTotal segs) := by
  intro segs
  induction segs with
  | nil => rfl
  | cons g gs ih => exact Or.inr ⟨segTotal gs, ih, rfl⟩

lemma planarFull_eq (s : PlanarSurf) : planarFull s = segFull s.segs := by
  simp [planarFull, segFull, PlanarSurf.segs]

lemma planarTotal_eq (s : PlanarSurf) : planarTotal s = segTotal s.segs := by
  simp [planarTotal, segTotal, PlanarSurf.segs]

lemma nv12Full_eq (s : Nv12Surf) : nv12Full s = segFull s.segs := by
  simp [nv12Full, segFull, Nv12Surf.segs]

lemma nv12Total_eq (s : Nv12Surf) : nv12Total s = segTotal s.segs := by
  simp [nv12Total, segTotal, Nv12Surf.segs]

lemma planarSegs_pos (s : PlanarSurf) (hw2 : 0 < s.w / 2) :
    ∀ g ∈ s.segs, 0 < g.w := by
  intro g hg
  simp only [PlanarSurf.segs, List.mem_cons, List.not_mem_nil, or_false] at hg
  rcases hg with h | h | h <;> subst h
  · show 0 < s.w
    omega
  · show 0 < s.w / 2
    omega
  · show 0 < s.w / 2
    omega

lemma planarSegs_cap (s : PlanarSurf) (c : Nat) (hc : s.w ≤ c) :
    ∀ g ∈ s.segs, g.w ≤ c := by
  intro g hg
  simp only [PlanarSurf.segs, List.mem_cons, List.not_mem_nil, or_false] at hg
  rcases hg with h | h | h <;> subst h
  · show s.w ≤ c
    omega
  · show s.w / 2 ≤ c
    omega
  · show s.w / 2 ≤ c
    omega

lemma nv12Segs_pos (s : Nv12Surf) (hw : 0 < s.w) :
    ∀ g ∈ s.segs, 0 < g.w := by
  intro g hg
  simp only [Nv12Surf.segs, List.mem_cons, List.not_mem_nil, or_false] at hg
  rcases hg with h | h <;> subst h
  · exact hw
  · exact hw

lemma nv12Segs_cap (s : Nv12Surf) (c : Nat) (hc : s.w ≤ c) :
    ∀ g ∈ s.segs, g.w ≤ c := by
  intro g hg
  simp only [Nv12Surf.segs, List.mem_cons, List.not_mem_nil, or_false] at hg
  rcases hg with h | h <;> subst h
  · exact hc
  · exact hc

/-- Draining a planar surface from any row-boundary cursor with enough
reads, each holding at least one luma row, yields the rest of the frame. -/
lemma planarDrain_drop (s : PlanarSurf) (hw2 : 0 < s.w / 2) :
    ∀ (caps : List Nat) (off : Nat), s.Boundary off → (∀ c ∈ caps, s.w ≤ c) →
      planarTotal s - off ≤ caps.length →
      planarDrain s off caps = (planarFull s).drop off := by
  intro caps
  induction caps with
  | nil =>
    intro off _ _ hn
    simp only [List.length_nil] at hn
    have hlen : (planarFull s).length ≤ off := by
      rw [planarFull_eq, segFull_length, ← planarTotal_eq]
      omega
    rw [List.drop_eq_nil_of_le hlen]
    rfl
  | cons c cs ih =>
    intro off hb hc hn
    have hsw := planarSegs_pos s hw2
    obtain ⟨ha, hbnd, hprog, hnil⟩ := segRead_step s.segs hsw off c hb
    have heq : planarRead s off c = (segRead s.segs off c).1 :=
      planarRead_eq_segRead s hw2 off c
    have hctail : ∀ c2 ∈ cs, s.w ≤ c2 := fun c2 h2 => hc c2 (List.mem_cons_of_mem c h2)
    simp only [planarDrain]
    by_cases hoff : planarTotal s ≤ off
    · have hout : planarRead s off c = [] := by
        rw [heq]
        exact hnil (by rw [← planarTotal_eq]; exact hoff)
      rw [hout]
      simp only [List.nil_append, List.length_nil, Nat.add_zero]
      exact ih off hb hctail (by omega)
    · push_neg at hoff
      have hpos : 0 < (planarRead s off c).length := by
        rw [heq]
        exact hprog (by rw [← planarTotal_eq]; exact hoff)
          (planarSegs_cap s c (hc c (List.mem_cons_self c cs)))
      have hbnd' : s.Boundary (off + (planarRead s off c).length) := by
        rw [heq]
        exact hbnd
      have hstep := ih (off + (planarRead s off c).length) hbnd' hctail (by
        simp only [List.length_cons] at hn ⊢
        omega)
      rw [hstep, planarFull_eq, heq]
      exact ha

/-- Draining an NV12 surface likewise. -/
lemma nv12Drain_drop (s : Nv12Surf) (hw : 0 < s.w) :
    ∀ (caps : List Nat) (off : Nat), s.Boundary off → (∀ c ∈ caps, s.w ≤ c) →
      nv12Total s - off ≤ caps.length →
      nv12Drain s off caps = (nv12Full s).drop off := by
  intro caps
  induction caps with
  | nil =>
    intro off _ _ hn
    simp only [List.length_nil] at hn
    have hlen : (nv12Full s).length ≤ off := by
      rw [nv12Full_eq, segFull_length, ← nv12Total_eq]
      omega
    rw [List.drop_eq_nil_of_le hlen]
    rfl
  | cons c cs ih =>
    intro off hb hc hn
    have hsw := nv12Segs_pos s hw
    obtain ⟨ha, hbnd, hprog, hnil⟩ := segRead_step s.segs hsw off c hb
    have heq : nv12Read s off c = (segRead s.segs off c).1 :=
      nv12Read_eq_segRead s off c
    have hctail : ∀ c2 ∈ cs, s.w ≤ c2 := fun c2 h2 => hc c2 (List.mem_cons_of_mem c h2)
    simp only [nv12Drain]
    by_cases hoff : nv12Total s ≤ off
    · have hout : nv12Read s off c = [] := by
        rw [heq]
        exact hnil (by rw [← nv12Total_eq]; exact hoff)
      rw [hout]
      simp only [List.nil_append, List.length_nil, Nat.add_zero]
      exact ih off hb hctail (by omega)
    · push_neg at hoff
      have hpos : 0 < (nv12Read s off c).length := by
        rw [heq]
        exact hprog (by rw [← nv12Total_eq]; exact hoff)
          (nv12Segs_cap s c (hc c (List.mem_cons_self c cs)))
      have hbnd' : s.Boundary (off + (nv12Read s off c).length) := by
        rw [heq]
        exact hbnd
      have hstep := ih (off + (nv12Read s off c).length) hbnd' hctail (by
        simp only [List.length_cons] at hn ⊢
        omega)
      rw [hstep, nv12Full_eq, heq]
      exact ha

/-- A single whole-frame read of a planar surface. -/
lemma planarRead_full (s : PlanarSurf) (hw2 : 0 < s.w / 2) :
    planarRead s 0 (planarTotal s) = planarFull s := by
  rw [planarRead_eq_segRead s hw2, planarFull_eq, planarTotal_eq]
  exact (segRead_all s.segs (planarSegs_pos s hw2) _ le_rfl).1

/-- A single whole-frame read of an NV12 surface. -/
lemma nv12Read_full (s : Nv12Surf) (hw : 0 < s.w) :
    nv12Read s 0 (nv12Total s) = nv12Full s := by
  rw [nv12Read_eq_segRead s, nv12Full_eq, nv12Total_eq]
  exact (segRead_all s.segs (nv12Segs_pos s hw) _ le_rfl).1

/-- Repeated Rgb4OrBgra reads concatenate to a take of the remaining
frame. -/
lemma bgraDrain_eq (frame : List Nat) :
    ∀ (caps : List Nat) (off : Nat),
      bgraDrain frame off caps = (frame.drop off).take caps.sum := by
  intro caps
  induction caps with
  | nil =>
    intro off
    simp [bgraDrain]
  | cons c cs ih =>
    intro off
    simp only [bgraDrain, bgraRead, List.sum_cons]
    rw [ih, List.take_add]
    congr 1
    rw [List.drop_drop]
    by_cases hc : c ≤ frame.length - off
    · have hlen : ((frame.drop off).take c).length = c := by
        simp only [List.length_take, List.length_drop]
        omega
      rw [hlen, Nat.add_comm off c]
    · have h1 : frame.drop (off + ((frame.drop off).take c).length) = [] := by
        apply List.drop_eq_nil_of_le
        simp only [List.length_take, List.length_drop]
        omega
      have h2 : frame.drop (off + c) = [] := by
        apply List.drop_eq_nil_of_le
        omega
      rw [h1, h2]

/-- C5 counterexample: the claim quantifies over every supported format,
but on the `Rgb4OrBgra` arm the streaming read copies
`min(destination, remaining)` bytes with no row granularity.  For a
16-byte frame of two 8-byte rows and a 12-byte destination (at least one
row long), the single call emits 12 bytes, leaving the cursor 4 bytes
into the second row — a row split across destination buffers, refuting
"writes only whole rows (never a partial row)". -/
theorem framesurface_streaming_read_counterexample :
    (bgraRead (List.range 16) 0 12).length = 12
    ∧ ¬ (8 ∣ (bgraRead (List.range 16) 0 12).length)
    ∧ (8 : Nat) ≤ 12 ∧ (List.range 16).length = 2 * 8 := by decide

/-- C5 (amended): the streaming read keeps a monotonic cursor advanced by
exactly the bytes written (`read_offset += bytes_written`, definitional in
the model).  For the planar formats (IyuvOrI420/YV12, and NV12) every call
starting on a row boundary writes only whole rows, so the cursor stays on
row boundaries; a call at end of frame returns 0 bytes; and enough
repeated reads through destinations of at least one luma row each,
concatenated, equal the single read into a whole-frame destination.  For
`Rgb4OrBgra` the same drain equality holds, but the call may split a row
(see the counterexample). -/
theorem framesurface_streaming_read_amended :
    (∀ (s : PlanarSurf) (caps : List Nat), 0 < s.w / 2 →
      (∀ c ∈ caps, s.w ≤ c) → planarTotal s ≤ caps.length →
      planarDrain s 0 caps = planarRead s 0 (planarTotal s))
    ∧ (∀ (s : PlanarSurf) (off cap : Nat), 0 < s.w / 2 → s.Boundary off →
        s.Boundary (off + (planarRead s off cap).length))
    ∧ (∀ (s : PlanarSurf) (cap : Nat), 0 < s.w / 2 →
        planarRead s (planarTotal s) cap = [])
    ∧ (∀ (t : Nv12Surf) (caps : List Nat), 0 < t.w →
        (∀ c ∈ caps, t.w ≤ c) → nv12Total t ≤ caps.length →
        nv12Drain t 0 caps = nv12Read t 0 (nv12Total t))
    ∧ (∀ (t : Nv12Surf) (off cap : Nat), 0 < t.w → t.Boundary off →
        t.Boundary (off + (nv12Read t off cap).length))
    ∧ (∀ (t : Nv12Surf) (cap : Nat), 0 < t.w →
        nv12Read t (nv12Total t) cap = [])
    ∧ (∀ (frame caps : List Nat), frame.length ≤ caps.sum →
        bgraDrain frame 0 caps = bgraRead frame 0 frame.length) := by
  refine ⟨?_, ?_, ?_, ?_, ?_, ?_, ?_⟩
  · intro s caps hw2 hc hn
    rw [planarDrain_drop s hw2 caps 0 (segBoundary_zero _) hc (by omega),
      planarRead_full s hw2, List.drop_zero]
  · intro s off cap hw2 hb
    have heq := planarRead_eq_segRead s hw2 off cap
    show SegBoundary s.segs (off + (planarRead s off cap).length)
    rw [heq]
    exact (segRead_step s.segs (planarSegs_pos s hw2) off cap hb).2.1
  · intro s cap hw2
    rw [planarRead_eq_segRead s hw2]
    exact (segRead_step s.segs (planarSegs_pos s hw2) (planarTotal s) cap
      (by rw [planarTotal_eq]; exact segBoundary_total _)).2.2.2
      (by rw [planarTotal_eq])
  · intro t caps hw hc hn
    rw [nv12Drain_drop t hw caps 0 (segBoundary_zero _) hc (by omega),
      nv12Read_full t hw, List.drop_zero]
  · intro t off cap hw hb
    have heq := nv12Read_eq_segRead t off cap
    show SegBoundary t.segs (off + (nv12Read t off cap).length)
    rw [heq]
    exact (segRead_step t.segs (nv12Segs_pos t hw) off cap hb).2.1
  · intro t cap hw
    rw [nv12Read_eq_segRead t]
    exact (segRead_step t.segs (nv12Segs_pos t hw) (nv12Total t) cap
      (by rw [nv12Total_eq]; exact segBoundary_total _)).2.2.2
      (by rw [nv12Total_eq])
  · intro frame caps hsum
    rw [bgraDrain_eq frame caps 0, bgraRead]
    simp only [List.drop_zero]
    rw [List.take_of_length_le hsum, List.take_of_length_le (le_refl _)]

/-- C5 witness: the amended theorem applied to concrete 2x2 surfaces with
pitch 2 and to a 3-byte packed frame. -/
theorem framesurface_streaming_read_amended_witness :
    planarDrain sampleSurf 0 [2, 2, 2, 2, 2, 2]
      = planarRead sampleSurf 0 (planarTotal sampleSurf)
    ∧ sampleSurf.Boundary (0 + (planarRead sampleSurf 0 2).length)
    ∧ planarRead sampleSurf (planarTotal sampleSurf) 5 = []
    ∧ nv12Drain sampleNv12 0 [2, 2, 2, 2, 2, 2]
      = nv12Read sampleNv12 0 (nv12Total sampleNv12)
    ∧ sampleNv12.Boundary (0 + (nv12Read sampleNv12 0 2).length)
    ∧ nv12Read sampleNv12 (nv12Total sampleNv12) 5 = []
    ∧ bgraDrain [7, 8, 9] 0 [2, 2] = bgraRead [7, 8, 9] 0 3 :=
  ⟨framesurface_streaming_read_amended.1 sampleSurf [2, 2, 2, 2, 2, 2]
      (by decide) (by decide) (by decide),
   framesurface_streaming_read_amended.2.1 sampleSurf 0 2 (by decide)
      (segBoundary_zero _),
   framesurface_streaming_read_amended.2.2.1 sampleSurf 5 (by decide),
   framesurface_streaming_read_amended.2.2.2.1 sampleNv12 [2, 2, 2, 2, 2, 2]
      (by decide) (by decide) (by decide),
   framesurface_streaming_read_amended.2.2.2.2.1 sampleNv12 0 2 (by decide)
      (segBoundary_zero _),
   framesurface_streaming_read_amended.2.2.2.2.2.1 sampleNv12 5 (by decide),
   framesurface_streaming_read_amended.2.2.2.2.2.2 [7, 8, 9] [2, 2] (by decide)⟩

end OneVpl
